import Mathlib

/-
Verification of the mailbox delivery / message composition core of the
smtp-client-server-gui repository.  Python strings are modelled as `List Char`,
the mailbox directory as an association list keyed by
(encoded mailbox directory, file name), and the clock (datetime.now strftime
output) as an explicit `Nat → List Char` stream of timestamp strings.
-/

set_option maxRecDepth 8000

namespace SMTPLab

abbrev Str := List Char

/-! ## Python string primitives used by the source -/

/-- Fuel-driven core of Python `str.replace(pat, rep)`: scan left to right,
at each position either consume a full occurrence of `pat` (emitting `rep`)
or emit one character and advance.  `fuel ≥ s.length` makes it total and
structurally recursive, hence kernel-computable. -/
def pyReplaceGo (pat rep : Str) : Nat → Str → Str
  | _, [] => []
  | 0, s => s
  | fuel + 1, c :: rest =>
    if 0 < pat.length ∧ (c :: rest).take pat.length = pat then
      rep ++ pyReplaceGo pat rep fuel ((c :: rest).drop pat.length)
    else
      c :: pyReplaceGo pat rep fuel rest

/-- Python `s.replace(pat, rep)` for a non-empty pattern: replaces all
non-overlapping occurrences, leftmost first. -/
def pyReplace (pat rep s : Str) : Str := pyReplaceGo pat rep s.length s

theorem pyReplaceGo_nil (pat rep : Str) (fuel : Nat) :
    pyReplaceGo pat rep fuel [] = [] := by
  cases fuel <;> rfl

theorem pyReplaceGo_fuel (pat rep : Str) :
    ∀ fuel₁ fuel₂ s, s.length ≤ fuel₁ → s.length ≤ fuel₂ →
      pyReplaceGo pat rep fuel₁ s = pyReplaceGo pat rep fuel₂ s := by
  intro fuel₁
  induction fuel₁ with
  | zero =>
    intro fuel₂ s hs₁ _
    have : s = [] := List.eq_nil_of_length_eq_zero (Nat.le_zero.mp hs₁)
    subst this
    simp [pyReplaceGo_nil]
  | succ f ih =>
    intro fuel₂ s hs₁ hs₂
    match s with
    | [] => simp [pyReplaceGo_nil]
    | c :: rest =>
      match fuel₂ with
      | 0 => simp [List.length_cons] at hs₂
      | f₂ + 1 =>
        have hr₁ : rest.length ≤ f := by
          simpa [List.length_cons] using hs₁
        have hr₂ : rest.length ≤ f₂ := by
          simpa [List.length_cons] using hs₂
        by_cases h : 0 < pat.length ∧ (c :: rest).take pat.length = pat
        · have hdrop : ((c :: rest).drop pat.length).length ≤ rest.length := by
            simp only [List.length_drop, List.length_cons]
            omega
          simp only [pyReplaceGo, if_pos h]
          rw [ih f₂ _ (le_trans hdrop hr₁) (le_trans hdrop hr₂)]
        · simp only [pyReplaceGo, if_neg h]
          rw [ih f₂ rest hr₁ hr₂]

theorem pyReplace_nil (pat rep : Str) : pyReplace pat rep [] = [] := rfl

/-- Unfolding equation for `pyReplace` on a non-empty string. -/
theorem pyReplace_cons (pat rep : Str) (c : Char) (rest : Str) :
    pyReplace pat rep (c :: rest) =
      if 0 < pat.length ∧ (c :: rest).take pat.length = pat then
        rep ++ pyReplace pat rep ((c :: rest).drop pat.length)
      else
        c :: pyReplace pat rep rest := by
  by_cases h : 0 < pat.length ∧ (c :: rest).take pat.length = pat
  · have hdrop : ((c :: rest).drop pat.length).length ≤ rest.length := by
      simp only [List.length_drop, List.length_cons]
      omega
    simp only [pyReplace, List.length_cons, pyReplaceGo, if_pos h]
    rw [pyReplaceGo_fuel pat rep rest.length ((c :: rest).drop pat.length).length _
        hdrop le_rfl]
  · simp only [pyReplace, List.length_cons, pyReplaceGo, if_neg h]

/-! ## AddressCodec (smtp_server.py line 120, smtp_gui.py lines 409 and 429)

The source encodes a recipient address into a mailbox directory name with
`recipient.replace('@', '_at_').replace('.', '_')` and the GUI decodes a
directory name back with `d.replace('_at_', '@').replace('_', '.')`. -/

/-- Mailbox-identifier encoding from the source:
first replace every `@` by `_at_`, then every `.` by `_`. -/
def encode (s : Str) : Str :=
  pyReplace ['.'] ['_'] (pyReplace ['@'] ['_', 'a', 't', '_'] s)

/-- Mailbox-identifier decoding from the source:
first replace every `_at_` by `@`, then every `_` by `.`. -/
def decode (s : Str) : Str :=
  pyReplace ['_'] ['.'] (pyReplace ['_', 'a', 't', '_'] ['@'] s)

/-- Replacement of a single character pattern, written as a per-character
substitution; used to reason about `pyReplace` with singleton patterns. -/
def substChar (c : Char) (rep : Str) : Str → Str
  | [] => []
  | x :: xs => (if x = c then rep else [x]) ++ substChar c rep xs

theorem pyReplace_single (c : Char) (rep : Str) :
    ∀ s, pyReplace [c] rep s = substChar c rep s := by
  intro s
  induction s with
  | nil => rfl
  | cons x xs ih =>
    rw [pyReplace_cons]
    by_cases hx : x = c
    · have hcond : 0 < ([c] : Str).length ∧ (x :: xs).take ([c] : Str).length = [c] := by
        constructor
        · simp
        · simp [hx]
      rw [if_pos hcond]
      simp [substChar, hx, ih]
    · have hcond : ¬(0 < ([c] : Str).length ∧ (x :: xs).take ([c] : Str).length = [c]) := by
        simp [hx]
      rw [if_neg hcond]
      simp [substChar, hx, ih]

theorem substChar_append (c : Char) (rep : Str) :
    ∀ a b, substChar c rep (a ++ b) = substChar c rep a ++ substChar c rep b := by
  intro a b
  induction a with
  | nil => rfl
  | cons x xs ih => simp [substChar, ih]

/-- The block of output characters `encode` produces for one input character. -/
def encBlock (x : Char) : Str :=
  if x = '@' then ['_', 'a', 't', '_'] else if x = '.' then ['_'] else [x]

/-- Concatenation of per-character blocks. -/
def concatMapC (f : Char → Str) : Str → Str
  | [] => []
  | x :: xs => f x ++ concatMapC f xs

/-- `encode` is the per-character homomorphism given by `encBlock`. -/
theorem encode_eq (s : Str) : encode s = concatMapC encBlock s := by
  unfold encode
  rw [pyReplace_single, pyReplace_single]
  induction s with
  | nil => rfl
  | cons x xs ih =>
    simp only [substChar, substChar_append, concatMapC, ih]
    by_cases hx : x = '@'
    · subst hx
      simp [substChar, encBlock]
    · by_cases hd : x = '.'
      · subst hd
        simp [substChar, encBlock]
      · simp [substChar, encBlock, hx, hd]

/-- Decidable substring-occurrence check (does `pat` occur in `s`). -/
def occursIn (pat : Str) : Str → Bool
  | [] => pat.isEmpty
  | c :: rest => decide ((c :: rest).take pat.length = pat) || occursIn pat rest

theorem occursIn_cons_false {pat : Str} {c : Char} {rest : Str}
    (h : occursIn pat (c :: rest) = false) :
    ¬((c :: rest).take pat.length = pat) ∧ occursIn pat rest = false := by
  simp only [occursIn, Bool.or_eq_false_iff, decide_eq_false_iff_not] at h
  exact h

theorem encTake1 (zs : Str) (hu : '_' ∉ zs)
    (h : (concatMapC encBlock zs).take 1 = ['_']) :
    ∃ w rest, zs = w :: rest ∧ (w = '.' ∨ w = '@') := by
  match zs with
  | [] => simp [concatMapC] at h
  | z :: zs2 =>
    refine ⟨z, zs2, rfl, ?_⟩
    by_cases hza : z = '@'
    · exact Or.inr hza
    by_cases hzd : z = '.'
    · exact Or.inl hzd
    exfalso
    have hblock : encBlock z = [z] := by simp [encBlock, hza, hzd]
    simp only [concatMapC, hblock, List.cons_append, List.nil_append, List.take] at h
    have hz : z = '_' := by simpa using h
    exact hu (by simp [hz])

theorem encTake2 (ys : Str) (hu : '_' ∉ ys)
    (h : (concatMapC encBlock ys).take 2 = ['t', '_']) :
    ∃ w rest, ys = 't' :: w :: rest ∧ (w = '.' ∨ w = '@') := by
  match ys with
  | [] => simp [concatMapC] at h
  | y :: ys2 =>
    by_cases hya : y = '@'
    · subst hya
      simp [concatMapC, encBlock, List.take] at h
    by_cases hyd : y = '.'
    · subst hyd
      simp [concatMapC, encBlock, List.take] at h
    have hblock : encBlock y = [y] := by simp [encBlock, hya, hyd]
    simp only [concatMapC, hblock, List.cons_append, List.nil_append, List.take,
      List.cons.injEq] at h
    obtain ⟨hy, h1⟩ := h
    have hu2 : '_' ∉ ys2 := fun hm => hu (List.mem_cons_of_mem _ hm)
    obtain ⟨w, rest, hrest, hw⟩ := encTake1 ys2 hu2 h1
    exact ⟨w, rest, by rw [hy, hrest], hw⟩

theorem encTake3 (xs : Str) (hu : '_' ∉ xs)
    (h : (concatMapC encBlock xs).take 3 = ['a', 't', '_']) :
    ∃ w rest, xs = 'a' :: 't' :: w :: rest ∧ (w = '.' ∨ w = '@') := by
  match xs with
  | [] => simp [concatMapC] at h
  | x :: xs2 =>
    by_cases hxa : x = '@'
    · subst hxa
      simp [concatMapC, encBlock, List.take] at h
    by_cases hxd : x = '.'
    · subst hxd
      simp [concatMapC, encBlock, List.take] at h
    have hblock : encBlock x = [x] := by simp [encBlock, hxa, hxd]
    simp only [concatMapC, hblock, List.cons_append, List.nil_append, List.take,
      List.cons.injEq] at h
    obtain ⟨hx, h2⟩ := h
    have hu2 : '_' ∉ xs2 := fun hm => hu (List.mem_cons_of_mem _ hm)
    obtain ⟨w, rest, hrest, hw⟩ := encTake2 xs2 hu2 h2
    exact ⟨w, rest, by rw [hx, hrest], hw⟩

/-- First pass of `decode` on an encoded address: replacing `_at_` recovers
`@` and leaves the underscores produced from dots alone, provided the
original address contains no underscore and no `.at.` or `.at@` substring. -/
theorem decode_tok : ∀ s : Str, '_' ∉ s →
    occursIn ['.', 'a', 't', '.'] s = false →
    occursIn ['.', 'a', 't', '@'] s = false →
    pyReplace ['_', 'a', 't', '_'] ['@'] (concatMapC encBlock s) =
      s.map (fun x => if x = '.' then '_' else x) := by
  intro s
  induction s with
  | nil =>
    intro _ _ _
    simp [concatMapC, pyReplace_nil]
  | cons x xs ih =>
    intro hu h2 h3
    have hu2 : '_' ∉ xs := fun hm => hu (List.mem_cons_of_mem _ hm)
    have hxu : x ≠ '_' := by
      intro hx
      exact hu (by rw [← hx]; exact List.mem_cons_self x xs)
    have h2t := (occursIn_cons_false h2).2
    have h3t := (occursIn_cons_false h3).2
    by_cases hxa : x = '@'
    · subst hxa
      have hE : concatMapC encBlock ('@' :: xs) =
          '_' :: ('a' :: 't' :: '_' :: concatMapC encBlock xs) := by
        simp [concatMapC, encBlock]
      rw [hE, pyReplace_cons]
      have hcond : 0 < (['_', 'a', 't', '_'] : Str).length ∧
          (('_' : Char) :: ('a' :: 't' :: '_' :: concatMapC encBlock xs)).take
            (['_', 'a', 't', '_'] : Str).length = ['_', 'a', 't', '_'] := by
        refine ⟨by simp, ?_⟩
        simp [List.take]
      rw [if_pos hcond]
      have hdrop : (('_' : Char) :: ('a' :: 't' :: '_' :: concatMapC encBlock xs)).drop
          (['_', 'a', 't', '_'] : Str).length = concatMapC encBlock xs := by
        simp [List.drop]
      rw [hdrop, ih hu2 h2t h3t]
      simp
    · by_cases hxd : x = '.'
      · subst hxd
        have hE : concatMapC encBlock ('.' :: xs) =
            '_' :: concatMapC encBlock xs := by
          simp [concatMapC, encBlock]
        rw [hE, pyReplace_cons]
        have hcond : ¬(0 < (['_', 'a', 't', '_'] : Str).length ∧
            (('_' : Char) :: concatMapC encBlock xs).take
              (['_', 'a', 't', '_'] : Str).length = ['_', 'a', 't', '_']) := by
          rintro ⟨-, htake⟩
          have htake3 : (concatMapC encBlock xs).take 3 = ['a', 't', '_'] := by
            have : (('_' : Char) :: concatMapC encBlock xs).take 4 =
                '_' :: (concatMapC encBlock xs).take 3 := by
              simp [List.take]
            rw [show (['_', 'a', 't', '_'] : Str).length = 4 from rfl] at htake
            rw [this] at htake
            exact (List.cons.injEq _ _ _ _).mp htake |>.2
          obtain ⟨w, rest, hxs, hw⟩ := encTake3 xs hu2 htake3
          rcases hw with hw | hw
          · have := (occursIn_cons_false h2).1
            apply this
            subst hxs; subst hw
            rfl
          · have := (occursIn_cons_false h3).1
            apply this
            subst hxs; subst hw
            rfl
        rw [if_neg hcond, ih hu2 h2t h3t]
        simp
      · have hE : concatMapC encBlock (x :: xs) =
            x :: concatMapC encBlock xs := by
          simp [concatMapC, encBlock, hxa, hxd]
        rw [hE, pyReplace_cons]
        have hcond : ¬(0 < (['_', 'a', 't', '_'] : Str).length ∧
            (x :: concatMapC encBlock xs).take
              (['_', 'a', 't', '_'] : Str).length = ['_', 'a', 't', '_']) := by
          rintro ⟨-, htake⟩
          rw [show (['_', 'a', 't', '_'] : Str).length = 4 from rfl] at htake
          have : (x :: concatMapC encBlock xs).take 4 =
              x :: (concatMapC encBlock xs).take 3 := by
            simp [List.take]
          rw [this] at htake
          exact hxu ((List.cons.injEq _ _ _ _).mp htake |>.1)
        rw [if_neg hcond, ih hu2 h2t h3t]
        simp [hxd]

/-- Second pass of `decode`: replacing `_` by `.` undoes the dot
substitution on an address without underscores. -/
theorem substChar_map_underscore : ∀ s : Str, '_' ∉ s →
    substChar '_' ['.'] (s.map (fun x => if x = '.' then '_' else x)) = s := by
  intro s
  induction s with
  | nil => intro _; rfl
  | cons x xs ih =>
    intro hu
    have hu2 : '_' ∉ xs := fun hm => hu (List.mem_cons_of_mem _ hm)
    have hxu : x ≠ '_' := by
      intro hx
      exact hu (by rw [← hx]; exact List.mem_cons_self x xs)
    by_cases hxd : x = '.'
    · subst hxd
      simp [substChar, ih hu2]
    · simp [substChar, hxd, hxu, ih hu2]

/-! ## The EmailAddress contract, as the specification words it -/

/-- Substring of an address after its last `@` (the specification calls
this the domain part). -/
def domainAfterLastAt (s : Str) : Str :=
  (s.reverse.takeWhile (fun c => !(c == '@'))).reverse

/-- EmailAddress contract stated from the specification words: exactly one
`@`, and the substring after the last `@` contains at least one `.`. -/
def specEmailContract (s : Str) : Bool :=
  (s.count '@' == 1) && (domainAfterLastAt s).contains '.'

/-- C1 counterexample: the address `a_b@c.d` satisfies the EmailAddress
contract (exactly one `@`, a dot after it) but does not round-trip:
`decode (encode it)` yields `a.b@c.d`.  The underscore already present in
the local part is turned into a dot by decoding. -/
theorem c1_roundtrip_counterexample :
    specEmailContract ("a_b@c.d".toList) = true ∧
      decode (encode ("a_b@c.d".toList)) ≠ "a_b@c.d".toList := by
  constructor
  · decide
  · decide

/-- C1 (amended): for every address satisfying the EmailAddress contract
that moreover contains no underscore and no occurrence of the substrings
`.at.` or `.at@`, decoding the encoded mailbox identifier returns the
original address: `decode (encode a) = a`. -/
theorem c1_decode_encode_roundtrip_amended (a : Str)
    (_hcontract : specEmailContract a = true)
    (hu : '_' ∉ a)
    (h2 : occursIn ['.', 'a', 't', '.'] a = false)
    (h3 : occursIn ['.', 'a', 't', '@'] a = false) :
    decode (encode a) = a := by
  unfold decode
  rw [encode_eq, decode_tok a hu h2 h3, pyReplace_single,
    substChar_map_underscore a hu]

/-- C1 witness: the amended round-trip theorem applied to the concrete
address `john@mail.example.com`. -/
theorem c1_roundtrip_witness :
    specEmailContract ("john@mail.example.com".toList) = true ∧
      decode (encode ("john@mail.example.com".toList)) =
        "john@mail.example.com".toList := by
  refine ⟨by decide, ?_⟩
  exact c1_decode_encode_roundtrip_amended ("john@mail.example.com".toList)
    (by decide) (by decide) (by decide) (by decide)

/-! ## Email validation (smtp_server.py lines 93-105, identical code in
smtp_client.py lines 161-173) -/

/-- Python `s.split(sep)` for a single-character separator: splits on every
occurrence, keeping empty fields. -/
def pySplit (sep : Char) : Str → List Str
  | [] => [[]]
  | c :: rest =>
    if c = sep then [] :: pySplit sep rest
    else
      match pySplit sep rest with
      | [] => [[c]]
      | h :: t => (c :: h) :: t

/-- The validation from the source, shared verbatim by server and client:
`'@' in email and '.' in email.split('@')[1]`.  The index access is guarded
by the first conjunct, so the `getD` default is never used. -/
def validate_email (s : Str) : Bool :=
  s.contains '@' && ((pySplit '@' s).getD 1 []).contains '.'

theorem pySplit_head (sep : Char) :
    ∀ s : Str, (pySplit sep s).head? = some (s.takeWhile (fun c => !(c == sep))) := by
  intro s
  induction s with
  | nil => rfl
  | cons c rest ih =>
    by_cases hc : c = sep
    · subst hc
      simp [pySplit, List.takeWhile]
    · simp only [pySplit, if_neg hc]
      match hsplit : pySplit sep rest with
      | [] => rw [hsplit] at ih; simp at ih
      | h :: t =>
        rw [hsplit] at ih
        simp only [List.head?] at ih
        have hh : h = rest.takeWhile (fun c => !(c == sep)) := by
          simpa using ih
        simp [List.takeWhile_cons, hc, hh]

theorem pySplit_ne_nil (sep : Char) (s : Str) : pySplit sep s ≠ [] := by
  intro h
  have := pySplit_head sep s
  rw [h] at this
  simp at this

/-- The second field of `split(sep)`, in code-independent terms: the
segment strictly between the first separator and the following one
(or the end of the string). -/
theorem pySplit_getD_one (sep : Char) :
    ∀ s : Str, s.contains sep = true →
      (pySplit sep s).getD 1 [] =
        ((s.dropWhile (fun c => !(c == sep))).drop 1).takeWhile (fun c => !(c == sep)) := by
  intro s
  induction s with
  | nil => intro h; simp at h
  | cons c rest ih =>
    intro h
    by_cases hc : c = sep
    · subst hc
      have hhead := pySplit_head c rest
      simp only [pySplit, if_pos rfl]
      match hsplit : pySplit c rest with
      | [] => exact absurd hsplit (pySplit_ne_nil c rest)
      | hd :: t =>
        rw [hsplit] at hhead
        have hh : hd = rest.takeWhile (fun x => !(x == c)) := by simpa using hhead
        simp [List.dropWhile, hh]
    · have hrest : rest.contains sep = true := by
        simp only [List.contains_cons] at h
        rcases Bool.or_eq_true_iff.mp h with h1 | h1
        · have hsc : sep = c := by simpa using h1
          exact absurd hsc.symm hc
        · exact h1
      match hsplit : pySplit sep rest with
      | [] => exact absurd hsplit (pySplit_ne_nil sep rest)
      | hd :: t =>
        have hL : (pySplit sep (c :: rest)).getD 1 [] =
            (pySplit sep rest).getD 1 [] := by
          simp only [pySplit, if_neg hc, hsplit]
          rfl
        have hR : (((c :: rest).dropWhile (fun x => !(x == sep))).drop 1).takeWhile
              (fun x => !(x == sep)) =
            ((rest.dropWhile (fun x => !(x == sep))).drop 1).takeWhile
              (fun x => !(x == sep)) := by
          rw [List.dropWhile_cons, if_pos (by simp [hc])]
        rw [hL, hR, ih hrest]

/-- C3 counterexample: `a@b.c@d` contains two `@` characters, so the claim
says validation must reject it, yet the source accepts it: the code checks
only that a dot occurs in the field between the first and the second `@`. -/
theorem c3_two_ats_accepted_counterexample :
    validate_email ("a@b.c@d".toList) = true ∧
      ("a@b.c@d".toList).count '@' = 2 ∧
      ¬(validate_email ("a@b.c@d".toList) = true ↔
          specEmailContract ("a@b.c@d".toList) = true) := by
  refine ⟨by decide, by decide, ?_⟩
  decide

/-- C3 (amended): the validation returns true iff the string contains at
least one `@` and the segment strictly between the first `@` and the next
`@` (or the end of the string) contains at least one `.`.  In particular
strings with two or more `@` are not all rejected. -/
theorem c3_validate_email_characterization (s : Str) :
    validate_email s = true ↔
      (s.contains '@' = true ∧
        (((s.dropWhile (fun c => !(c == '@'))).drop 1).takeWhile
            (fun c => !(c == '@'))).contains '.' = true) := by
  by_cases h : s.contains '@' = true
  · unfold validate_email
    rw [pySplit_getD_one '@' s h, h]
    simp
  · have hf : s.contains '@' = false := by
      cases hc : s.contains '@'
      · rfl
      · exact absurd hc h
    unfold validate_email
    rw [hf]
    simp

/-! ## Mailbox storage and delivery (smtp_server.py lines 41-152)

Files live under the fixed root `mailboxes/`; a file is keyed by the pair
(mailbox directory name, file name).  `datetime.now().strftime(...)` and
`datetime.now().isoformat()` are modelled by an explicit clock stream
`clk : Nat → Str`; each delivery consumes two consecutive clock values
(line 127 for the filename timestamp, line 137 for the metadata timestamp).
Storage failure (directory creation or write failure, e.g. permissions) is
modelled by a predicate `ioFail` on the mailbox directory name; a failing
delivery raises before writing anything, as a failing `os.makedirs` does. -/

/-- The metadata record written as `metadata_<timestamp>.json`
(smtp_server.py lines 136-142). -/
structure Metadata where
  timestamp : Str
  fromAddr : Str
  toAddr : Str
  subject : Str
  filename : Str
deriving DecidableEq

/-- Contents of a file in a mailbox directory. -/
inductive FileData where
  | eml (raw : Str)
  | json (meta : Metadata)
deriving DecidableEq

/-- The mailbox tree: an association list from
(mailbox directory name, file name) to file contents. -/
abbrev FS := List ((Str × Str) × FileData)

/-- Write (create or overwrite) one file, as `open(path, 'w')` does. -/
def writeFile : FS → Str × Str → FileData → FS
  | [], k, d => [(k, d)]
  | (k₂, d₂) :: rest, k, d =>
    if k₂ = k then (k, d) :: rest else (k₂, d₂) :: writeFile rest k d

/-- Read one file back, if present. -/
def readFile : FS → Str × Str → Option FileData
  | [], _ => none
  | (k₂, d₂) :: rest, k => if k₂ = k then some d₂ else readFile rest k

theorem readFile_writeFile_same (fs : FS) (k : Str × Str) (d : FileData) :
    readFile (writeFile fs k d) k = some d := by
  induction fs with
  | nil => simp [writeFile, readFile]
  | cons e rest ih =>
    obtain ⟨k₂, d₂⟩ := e
    by_cases hk : k₂ = k
    · simp [writeFile, readFile, hk]
    · simp [writeFile, readFile, hk, ih]

theorem readFile_writeFile_other (fs : FS) (k k' : Str × Str) (d : FileData)
    (h : k' ≠ k) : readFile (writeFile fs k d) k' = readFile fs k' := by
  induction fs with
  | nil => simp [writeFile, readFile, Ne.symm h]
  | cons e rest ih =>
    obtain ⟨k₂, d₂⟩ := e
    by_cases hk : k₂ = k
    · subst hk
      simp [writeFile, readFile, Ne.symm h]
    · by_cases hk' : k₂ = k'
      · subst hk'
        simp [writeFile, readFile, hk]
      · simp [writeFile, readFile, hk, hk', ih]

/-- Length of the store after a write: unchanged on overwrite, one more on
a fresh name. -/
theorem writeFile_length (fs : FS) (k : Str × Str) (d : FileData) :
    (writeFile fs k d).length =
      if readFile fs k = none then fs.length + 1 else fs.length := by
  induction fs with
  | nil => simp [writeFile, readFile]
  | cons e rest ih =>
    obtain ⟨k₂, d₂⟩ := e
    by_cases hk : k₂ = k
    · simp [writeFile, readFile, hk]
    · simp only [writeFile, readFile, if_neg hk, List.length_cons, ih]
      by_cases hr : readFile rest k = none
      · simp [hr]
      · simp [hr]

/-- The content file name `f"email_{timestamp}.eml"` of line 128. -/
def emailFilename (ts : Str) : Str := "email_".toList ++ ts ++ ".eml".toList

/-- The metadata file name `f"metadata_{timestamp}.json"` of line 144. -/
def metadataFilename (ts : Str) : Str := "metadata_".toList ++ ts ++ ".json".toList

/-- One delivery (smtp_server.py `deliver_to_mailbox`): encode the
recipient, fail if the storage location cannot be used, otherwise write the
raw message as `email_<ts1>.eml` and the metadata record as
`metadata_<ts1>.json`, where `ts1` is the strftime timestamp of line 127 and
`ts2` the isoformat timestamp of line 137.  On failure the exception is
re-raised to the caller (line 152). -/
def deliver_to_mailbox (ioFail : Str → Bool) (recipient sender subject raw : Str)
    (ts1 ts2 : Str) (fs : FS) : Except Unit (FS × Metadata) :=
  let recipient_safe := encode recipient
  if ioFail recipient_safe then .error () else
  let email_filename := emailFilename ts1
  let fs1 := writeFile fs (recipient_safe, email_filename) (.eml raw)
  let metadata : Metadata :=
    { timestamp := ts2, fromAddr := sender, toAddr := recipient,
      subject := subject, filename := email_filename }
  let fs2 := writeFile fs1 (recipient_safe, metadataFilename ts1) (.json metadata)
  .ok (fs2, metadata)

/-- Result of the delivery loop of `handle_DATA`: whether it ran to
completion without an exception, the mailbox tree afterwards, and the
metadata records created, in delivery order. -/
structure LoopRes where
  ok : Bool
  fs : FS
  records : List Metadata
deriving DecidableEq

/-- The recipient loop of `handle_DATA` (smtp_server.py lines 76-83):
valid recipients are delivered in order, invalid ones are only logged.  An
exception raised by `deliver_to_mailbox` escapes the loop (there is no
try/except around the loop body), keeping the files written so far. -/
def deliverLoop (ioFail : Str → Bool) (clk : Nat → Str) (sender subject raw : Str) :
    List Str → Nat → FS → LoopRes
  | [], _, fs => ⟨true, fs, []⟩
  | r :: rest, n, fs =>
    if validate_email r then
      match deliver_to_mailbox ioFail r sender subject raw (clk n) (clk (n + 1)) fs with
      | .ok (fs2, md) =>
        let res := deliverLoop ioFail clk sender subject raw rest (n + 2) fs2
        ⟨res.ok, res.fs, md :: res.records⟩
      | .error _ => ⟨false, fs, []⟩
    else
      deliverLoop ioFail clk sender subject raw rest n fs

/-- Outcome of `handle_DATA`: the SMTP status line returned to the protocol
layer, the mailbox tree, and the records created. -/
structure HandleResult where
  status : Str
  fs : FS
  records : List Metadata
deriving DecidableEq

/-- smtp_server.py `handle_DATA`: parse the content (modelled by the total
`parseSubject` extraction; `Parser` with `errors='replace'` decoding does
not raise), deliver to each recipient, and return
`250 Message accepted for delivery`; any exception is caught at lines 89-91
and turned into `550 Error processing message`. -/
def handle_DATA (ioFail : Str → Bool) (clk : Nat → Str) (parseSubject : Str → Str)
    (mailfrom : Str) (rcpttos : List Str) (data : Str) (fs : FS) : HandleResult :=
  let subject := parseSubject data
  let res := deliverLoop ioFail clk mailfrom subject data rcpttos 0 fs
  if res.ok then ⟨"250 Message accepted for delivery".toList, res.fs, res.records⟩
  else ⟨"550 Error processing message".toList, res.fs, res.records⟩

/-! ## Claims about handle_DATA -/

theorem deliverLoop_all_invalid (ioFail : Str → Bool) (clk : Nat → Str)
    (sender subject raw : Str) :
    ∀ (rcpts : List Str) (n : Nat) (fs : FS),
      (∀ r ∈ rcpts, validate_email r = false) →
      deliverLoop ioFail clk sender subject raw rcpts n fs = ⟨true, fs, []⟩ := by
  intro rcpts
  induction rcpts with
  | nil => intro n fs _; rfl
  | cons r rest ih =>
    intro n fs h
    have hr : validate_email r = false := h r (List.mem_cons_self r rest)
    simp only [deliverLoop, hr, Bool.false_eq_true, if_false]
    exact ih n fs (fun x hx => h x (List.mem_cons_of_mem _ hx))

/-- C2 counterexample: an envelope whose only recipient `invalid` fails
validation is nevertheless answered with `250 Message accepted for
delivery`, not with a rejection: `handle_DATA` returns 250 regardless of
per-recipient validation outcomes (the only 550 path is an exception). -/
theorem c2_all_invalid_accepted_counterexample :
    handle_DATA (fun _ => false) (fun _ => []) (fun _ => "No Subject".toList)
        ("sender@example.org".toList) ["invalid".toList] [] [] =
      ⟨"250 Message accepted for delivery".toList, [], []⟩ := by
  decide

/-- C2 (amended): for every envelope in which no recipient passes email
validation, `handle_DATA` returns the accepted status
`250 Message accepted for delivery` (not a rejection), and no content or
metadata files are written to any mailbox: the mailbox tree is unchanged
and no delivery record is produced. -/
theorem c2_no_valid_recipients_amended (ioFail : Str → Bool) (clk : Nat → Str)
    (parseSubject : Str → Str) (mailfrom : Str) (rcpttos : List Str)
    (data : Str) (fs : FS)
    (h : ∀ r ∈ rcpttos, validate_email r = false) :
    handle_DATA ioFail clk parseSubject mailfrom rcpttos data fs =
      ⟨"250 Message accepted for delivery".toList, fs, []⟩ := by
  simp only [handle_DATA,
    deliverLoop_all_invalid ioFail clk mailfrom (parseSubject data) data rcpttos 0 fs h,
    if_true]

/-- C2 witness: the amended theorem applied to a concrete envelope with
two invalid recipients. -/
theorem c2_no_valid_recipients_witness :
    handle_DATA (fun _ => false) (fun n => List.replicate n 'x')
        (fun _ => "Hello".toList) ("a@x.org".toList)
        ["nope".toList, "also@bad".toList] ("body".toList) [] =
      ⟨"250 Message accepted for delivery".toList, [], []⟩ :=
  c2_no_valid_recipients_amended (fun _ => false) (fun n => List.replicate n 'x')
    (fun _ => "Hello".toList) ("a@x.org".toList)
    ["nope".toList, "also@bad".toList] ("body".toList) [] (by decide)

theorem deliverLoop_failure (ioFail : Str → Bool) (clk : Nat → Str)
    (sender subject raw : Str) (r : Str) (l₂ : List Str)
    (hval : validate_email r = true) (hfail : ioFail (encode r) = true) :
    ∀ (l₁ : List Str) (n : Nat) (fs : FS),
      (∀ x ∈ l₁, ioFail (encode x) = false) →
      (deliverLoop ioFail clk sender subject raw (l₁ ++ r :: l₂) n fs).ok = false ∧
      (deliverLoop ioFail clk sender subject raw (l₁ ++ r :: l₂) n fs).records.map
          Metadata.toAddr = l₁.filter (fun x => validate_email x) := by
  intro l₁
  induction l₁ with
  | nil =>
    intro n fs _
    simp [deliverLoop, hval, deliver_to_mailbox, hfail]
  | cons a l₁t ih =>
    intro n fs hok
    have ha : ioFail (encode a) = false := hok a (List.mem_cons_self a l₁t)
    have hokt : ∀ x ∈ l₁t, ioFail (encode x) = false :=
      fun x hx => hok x (List.mem_cons_of_mem _ hx)
    by_cases hva : validate_email a = true
    · simp only [List.cons_append, deliverLoop, hva, if_true, deliver_to_mailbox,
        ha, Bool.false_eq_true, if_false]
      refine ⟨(ih (n + 2) _ hokt).1, ?_⟩
      simpa [List.filter_cons, hva] using (ih (n + 2) _ hokt).2
    · have hva' : validate_email a = false := by
        cases hv : validate_email a
        · rfl
        · exact absurd hv hva
      simp only [List.cons_append, deliverLoop, hva', Bool.false_eq_true, if_false]
      refine ⟨(ih n fs hokt).1, ?_⟩
      simpa [List.filter_cons, hva'] using (ih n fs hokt).2

/-- C4 counterexample: the envelope has two valid recipients and storage
fails only for the first; the claim says the loop continues and the
verdict stays accepted, but `deliver_to_mailbox` re-raises (line 152),
`handle_DATA` answers `550 Error processing message`, and the second
recipient gets nothing: no record and no file at all is created. -/
theorem c4_storage_failure_aborts_counterexample :
    handle_DATA (fun s => decide (s = encode ("b@y.cc".toList)))
        (fun _ => "T".toList) (fun _ => "S".toList) ("a@x.org".toList)
        ["b@y.cc".toList, "c@z.dd".toList] [] [] =
      ⟨"550 Error processing message".toList, [], []⟩ := by
  decide

/-- C4 (amended): a storage write failure while delivering to one valid
recipient aborts the whole delivery loop: recipients before the failing one
(the list `l₁`) keep their deliveries, recipients after it are never
attempted, and the overall verdict becomes `550 Error processing message`
instead of staying accepted. -/
theorem c4_storage_failure_amended (ioFail : Str → Bool) (clk : Nat → Str)
    (parseSubject : Str → Str) (mailfrom : Str) (data : Str) (fs : FS)
    (l₁ : List Str) (r : Str) (l₂ : List Str)
    (hval : validate_email r = true)
    (hfail : ioFail (encode r) = true)
    (hok : ∀ x ∈ l₁, ioFail (encode x) = false) :
    (handle_DATA ioFail clk parseSubject mailfrom (l₁ ++ r :: l₂) data fs).status =
      "550 Error processing message".toList ∧
    (handle_DATA ioFail clk parseSubject mailfrom (l₁ ++ r :: l₂) data fs).records.map
        Metadata.toAddr = l₁.filter (fun x => validate_email x) := by
  obtain ⟨h1, h2⟩ := deliverLoop_failure ioFail clk mailfrom (parseSubject data) data
    r l₂ hval hfail l₁ 0 fs hok
  simp only [handle_DATA, h1, Bool.false_eq_true, if_false]
  exact ⟨by trivial, h2⟩

/-- C4 witness: the amended theorem at a concrete envelope where the second
of three recipients hits the storage failure. -/
theorem c4_storage_failure_witness :
    (handle_DATA (fun s => decide (s = encode ("d@e.ff".toList)))
        (fun _ => "T".toList) (fun _ => "S".toList) ("a@x.org".toList)
        (["a@b.cc".toList] ++ "d@e.ff".toList :: ["g@h.ii".toList]) [] []).status =
      "550 Error processing message".toList ∧
    (handle_DATA (fun s => decide (s = encode ("d@e.ff".toList)))
        (fun _ => "T".toList) (fun _ => "S".toList) ("a@x.org".toList)
        (["a@b.cc".toList] ++ "d@e.ff".toList :: ["g@h.ii".toList]) [] []).records.map
        Metadata.toAddr = ["a@b.cc".toList].filter (fun x => validate_email x) :=
  c4_storage_failure_amended (fun s => decide (s = encode ("d@e.ff".toList)))
    (fun _ => "T".toList) (fun _ => "S".toList) ("a@x.org".toList) [] []
    ["a@b.cc".toList] ("d@e.ff".toList) ["g@h.ii".toList]
    (by decide) (by decide) (by decide)

theorem emailFilename_inj {t₁ t₂ : Str} (h : emailFilename t₁ = emailFilename t₂) :
    t₁ = t₂ := by
  unfold emailFilename at h
  exact List.append_cancel_left (List.append_cancel_right h)

theorem deliverLoop_no_failure (ioFail : Str → Bool) (clk : Nat → Str)
    (sender subject raw : Str) (hio : ∀ s, ioFail s = false) :
    ∀ (rcpts : List Str) (n : Nat) (fs : FS),
      (deliverLoop ioFail clk sender subject raw rcpts n fs).ok = true ∧
      (deliverLoop ioFail clk sender subject raw rcpts n fs).records.map
          Metadata.toAddr = rcpts.filter (fun r => validate_email r) ∧
      (deliverLoop ioFail clk sender subject raw rcpts n fs).records.map
          Metadata.filename =
        (List.range' n (rcpts.filter (fun r => validate_email r)).length 2).map
          (fun m => emailFilename (clk m)) := by
  intro rcpts
  induction rcpts with
  | nil => intro n fs; exact ⟨rfl, rfl, rfl⟩
  | cons r rest ih =>
    intro n fs
    by_cases hv : validate_email r = true
    · obtain ⟨ih1, ih2, ih3⟩ := ih (n + 2)
        (writeFile (writeFile fs (encode r, emailFilename (clk n)) (FileData.eml raw))
          (encode r, metadataFilename (clk n))
          (FileData.json
            { timestamp := clk (n + 1), fromAddr := sender, toAddr := r,
              subject := subject, filename := emailFilename (clk n) }))
      simp only [deliverLoop, hv, if_true, deliver_to_mailbox, hio,
        Bool.false_eq_true, if_false]
      refine ⟨ih1, ?_, ?_⟩
      · simp only [List.map_cons, List.filter_cons, hv, if_true]
        exact congrArg (List.cons r) ih2
      · simp only [List.map_cons, List.filter_cons, hv, if_true, List.length_cons,
          List.range'_succ]
        exact congrArg (List.cons (emailFilename (clk n))) ih3
    · have hv' : validate_email r = false := by
        cases hb : validate_email r
        · rfl
        · exact absurd hb hv
      obtain ⟨ih1, ih2, ih3⟩ := ih n fs
      simp only [deliverLoop, hv', Bool.false_eq_true, if_false]
      refine ⟨ih1, ?_, ?_⟩
      · simpa [List.filter_cons, hv'] using ih2
      · simpa [List.filter_cons, hv'] using ih3

/-- C5 counterexample: an envelope with two (duplicate, both valid)
recipients delivered while the clock yields the same formatted timestamp
`T` for both deliveries — the situation the claim calls the same
clock-resolution window.  Both delivery records carry the same filename
`email_T.eml`, the second write overwrites the first, and the produced
filenames are not pairwise distinct. -/
theorem c5_timestamp_collision_counterexample :
    (handle_DATA (fun _ => false) (fun _ => "T".toList) (fun _ => "S".toList)
        ("a@x.org".toList) ["b@y.cc".toList, "b@y.cc".toList] [] []).records.map
        Metadata.filename =
      [emailFilename ("T".toList), emailFilename ("T".toList)] ∧
    ¬((handle_DATA (fun _ => false) (fun _ => "T".toList) (fun _ => "S".toList)
        ("a@x.org".toList) ["b@y.cc".toList, "b@y.cc".toList] [] []).records.map
        Metadata.filename).Nodup := by
  constructor
  · decide
  · decide

/-- C5 (amended): for every envelope with at least one valid recipient,
provided storage never fails and the clock never repeats a timestamp
string, `handle_DATA` produces exactly one delivery record per valid
recipient (in envelope order), the filenames of these records are pairwise
distinct, and the overall outcome is the accepted status.  Distinctness
relies on distinct timestamp strings: the filename is the bare formatted
timestamp, so the claimed robustness within one clock-resolution window
does not hold (see the counterexample). -/
theorem c5_distinct_timestamps_amended (ioFail : Str → Bool) (clk : Nat → Str)
    (parseSubject : Str → Str) (mailfrom : Str) (rcpttos : List Str)
    (data : Str) (fs : FS)
    (_hval : ∃ r ∈ rcpttos, validate_email r = true)
    (hio : ∀ s, ioFail s = false)
    (hclk : ∀ m n, clk m = clk n → m = n) :
    (handle_DATA ioFail clk parseSubject mailfrom rcpttos data fs).status =
      "250 Message accepted for delivery".toList ∧
    (handle_DATA ioFail clk parseSubject mailfrom rcpttos data fs).records.map
        Metadata.toAddr = rcpttos.filter (fun r => validate_email r) ∧
    ((handle_DATA ioFail clk parseSubject mailfrom rcpttos data fs).records.map
        Metadata.filename).Nodup := by
  obtain ⟨h1, h2, h3⟩ := deliverLoop_no_failure ioFail clk mailfrom
    (parseSubject data) data hio rcpttos 0 fs
  have hinj : Function.Injective (fun m => emailFilename (clk m)) := by
    intro m₁ m₂ hm
    exact hclk m₁ m₂ (emailFilename_inj hm)
  simp only [handle_DATA, h1, if_true]
  refine ⟨by trivial, h2, ?_⟩
  rw [h3]
  exact (List.nodup_range' 0 _ 2 (by omega)).map hinj

/-- C5 witness: the amended theorem at a concrete envelope with two valid
recipients, one invalid one, and an injective clock. -/
theorem c5_distinct_timestamps_witness :
    (handle_DATA (fun _ => false) (fun n => List.replicate n 'x')
        (fun _ => "S".toList) ("a@x.org".toList)
        ["b@y.cc".toList, "bad".toList, "c@z.dd".toList] [] []).status =
      "250 Message accepted for delivery".toList ∧
    (handle_DATA (fun _ => false) (fun n => List.replicate n 'x')
        (fun _ => "S".toList) ("a@x.org".toList)
        ["b@y.cc".toList, "bad".toList, "c@z.dd".toList] [] []).records.map
        Metadata.toAddr =
      ["b@y.cc".toList, "bad".toList, "c@z.dd".toList].filter
        (fun r => validate_email r) ∧
    ((handle_DATA (fun _ => false) (fun n => List.replicate n 'x')
        (fun _ => "S".toList) ("a@x.org".toList)
        ["b@y.cc".toList, "bad".toList, "c@z.dd".toList] [] []).records.map
        Metadata.filename).Nodup :=
  c5_distinct_timestamps_amended (fun _ => false) (fun n => List.replicate n 'x')
    (fun _ => "S".toList) ("a@x.org".toList)
    ["b@y.cc".toList, "bad".toList, "c@z.dd".toList] [] []
    ⟨"b@y.cc".toList, by decide⟩ (fun _ => rfl)
    (fun m n h => by simpa using congrArg List.length h)

theorem emailFilename_ne_metadataFilename (t₁ t₂ : Str) :
    emailFilename t₁ ≠ metadataFilename t₂ := by
  intro h
  have h2 : (some 'e' : Option Char) = some 'm' := congrArg List.head? h
  simp at h2

/-- C10 counterexample: a successful delivery whose formatted timestamp
collides with a file already present in the mailbox does not create two new
files: the store grows from one file to two (the content file is
overwritten in place, only the metadata file is new). -/
theorem c10_overwrite_counterexample :
    ((deliver_to_mailbox (fun _ => false) ("b@y.cc".toList) ("a@x.org".toList)
        ("S".toList) ("new".toList) ("T".toList) ("T2".toList)
        [((encode ("b@y.cc".toList), emailFilename ("T".toList)),
          FileData.eml ("old".toList))]).toOption.map (fun p => p.1.length)) =
      some 2 ∧
    ([((encode ("b@y.cc".toList), emailFilename ("T".toList)),
        FileData.eml ("old".toList))] : FS).length = 1 := by
  constructor
  · decide
  · decide

/-- C10 (amended): every successful delivery to one recipient writes
exactly two files — the content file `email_<ts1>.eml` holding the raw
message and the metadata file `metadata_<ts1>.json` sharing the same
timestamp string `ts1`, the metadata record's `filename` field equal to the
content file's name — both placed inside the directory for that recipient's
encoded address; each is newly created when no file of that name exists
(so two new files when both names are fresh) and overwritten otherwise;
and no file under any other key — in particular in any other mailbox
directory — is created, modified, or deleted. -/
theorem c10_delivery_frame_amended (ioFail : Str → Bool)
    (recipient sender subject raw ts1 ts2 : Str) (fs : FS)
    (hio : ioFail (encode recipient) = false) :
    ∃ fs2 md,
      deliver_to_mailbox ioFail recipient sender subject raw ts1 ts2 fs =
        .ok (fs2, md) ∧
      md.filename = emailFilename ts1 ∧
      readFile fs2 (encode recipient, emailFilename ts1) = some (.eml raw) ∧
      readFile fs2 (encode recipient, metadataFilename ts1) = some (.json md) ∧
      (∀ k, k ≠ (encode recipient, emailFilename ts1) →
        k ≠ (encode recipient, metadataFilename ts1) →
        readFile fs2 k = readFile fs k) ∧
      (readFile fs (encode recipient, emailFilename ts1) = none →
        readFile fs (encode recipient, metadataFilename ts1) = none →
        fs2.length = fs.length + 2) := by
  have hne : (encode recipient, emailFilename ts1) ≠
      (encode recipient, metadataFilename ts1) := by
    intro h
    exact emailFilename_ne_metadataFilename ts1 ts1 (congrArg Prod.snd h)
  refine ⟨writeFile (writeFile fs (encode recipient, emailFilename ts1) (.eml raw))
      (encode recipient, metadataFilename ts1)
      (.json ⟨ts2, sender, recipient, subject, emailFilename ts1⟩),
    ⟨ts2, sender, recipient, subject, emailFilename ts1⟩, ?_, rfl, ?_, ?_, ?_, ?_⟩
  · simp [deliver_to_mailbox, hio]
  · rw [readFile_writeFile_other _ _ _ _ hne]
    exact readFile_writeFile_same _ _ _
  · exact readFile_writeFile_same _ _ _
  · intro k hk1 hk2
    rw [readFile_writeFile_other _ _ _ _ hk2, readFile_writeFile_other _ _ _ _ hk1]
  · intro h1 h2
    rw [writeFile_length, readFile_writeFile_other _ _ _ _ (Ne.symm hne), h2, if_pos rfl,
      writeFile_length, h1, if_pos rfl]

/-- C10 witness: the amended theorem at a concrete delivery into an empty
store. -/
theorem c10_delivery_frame_witness :
    ∃ fs2 md,
      deliver_to_mailbox (fun _ => false) ("b@y.cc".toList) ("a@x.org".toList)
          ("S".toList) ("body".toList) ("T1".toList) ("T2".toList) [] =
        .ok (fs2, md) ∧
      md.filename = emailFilename ("T1".toList) ∧
      readFile fs2 (encode ("b@y.cc".toList), emailFilename ("T1".toList)) =
        some (.eml ("body".toList)) ∧
      readFile fs2 (encode ("b@y.cc".toList), metadataFilename ("T1".toList)) =
        some (.json md) ∧
      (∀ k, k ≠ (encode ("b@y.cc".toList), emailFilename ("T1".toList)) →
        k ≠ (encode ("b@y.cc".toList), metadataFilename ("T1".toList)) →
        readFile fs2 k = readFile ([] : FS) k) ∧
      (readFile ([] : FS) (encode ("b@y.cc".toList), emailFilename ("T1".toList)) = none →
        readFile ([] : FS) (encode ("b@y.cc".toList), metadataFilename ("T1".toList)) = none →
        fs2.length = ([] : FS).length + 2) :=
  c10_delivery_frame_amended (fun _ => false) ("b@y.cc".toList) ("a@x.org".toList)
    ("S".toList) ("body".toList) ("T1".toList) ("T2".toList) [] rfl

/-! ## Mailbox reading (smtp_gui.py `load_emails`, lines 419-452)

The GUI lists the metadata files of a mailbox directory in the order the
storage enumerates them (`os.listdir`), keeps the `.json` ones, and sorts
the parsed records with `emails.sort(key=lambda x: x.get('timestamp', ''),
reverse=True)` — Python's stable sort, descending by the timestamp string.
The enumeration order is the input list order of the model. -/

/-- Python string comparison `a < b`: lexicographic on code points. -/
def strLt : Str → Str → Bool
  | [], [] => false
  | [], _ :: _ => true
  | _ :: _, [] => false
  | a :: as, b :: bs => if a < b then true else if b < a then false else strLt as bs

theorem strLt_irrefl : ∀ a : Str, strLt a a = false := by
  intro a
  induction a with
  | nil => rfl
  | cons x xs ih => simp [strLt, ih]

theorem strLt_asymm : ∀ a b : Str, strLt a b = true → strLt b a = false := by
  intro a
  induction a with
  | nil =>
    intro b h
    cases b with
    | nil => simp [strLt] at h
    | cons y ys => simp [strLt]
  | cons x xs ih =>
    intro b h
    cases b with
    | nil => simp [strLt] at h
    | cons y ys =>
      simp only [strLt] at h ⊢
      by_cases hxy : x < y
      · simp [lt_asymm hxy, hxy]
      · by_cases hyx : y < x
        · rw [if_neg hxy, if_pos hyx] at h
          simp at h
        · rw [if_neg hxy, if_neg hyx] at h
          simp [hyx, hxy, ih ys h]

theorem strLt_trans : ∀ a b c : Str,
    strLt a b = true → strLt b c = true → strLt a c = true := by
  intro a
  induction a with
  | nil =>
    intro b c hab hbc
    cases b with
    | nil => simp [strLt] at hab
    | cons y ys =>
      cases c with
      | nil => simp [strLt] at hbc
      | cons z zs => simp [strLt]
  | cons x xs ih =>
    intro b c hab hbc
    cases b with
    | nil => simp [strLt] at hab
    | cons y ys =>
      cases c with
      | nil => simp [strLt] at hbc
      | cons z zs =>
        simp only [strLt] at hab hbc ⊢
        by_cases hxy : x < y
        · by_cases hyz : y < z
          · simp [lt_trans hxy hyz]
          · by_cases hzy : z < y
            · rw [if_neg hyz, if_pos hzy] at hbc
              simp at hbc
            · have hy : y = z := le_antisymm (le_of_not_lt hzy) (le_of_not_lt hyz)
              have hxz : x < z := hy ▸ hxy
              simp [hxz]
        · by_cases hyx : y < x
          · rw [if_neg hxy, if_pos hyx] at hab
            simp at hab
          · have hx : x = y := le_antisymm (le_of_not_lt hyx) (le_of_not_lt hxy)
            rw [if_neg hxy, if_neg hyx] at hab
            by_cases hyz : y < z
            · have hxz : x < z := hx ▸ hyz
              simp [hxz]
            · by_cases hzy : z < y
              · rw [if_neg hyz, if_pos hzy] at hbc
                simp at hbc
              · have hy : y = z := le_antisymm (le_of_not_lt hzy) (le_of_not_lt hyz)
                rw [if_neg hyz, if_neg hzy] at hbc
                have hxz : ¬x < z := by
                  rw [← hy, ← hx]
                  exact lt_irrefl x
                have hzx : ¬z < x := by
                  rw [← hy, ← hx]
                  exact lt_irrefl x
                simp [hxz, hzx, ih ys zs hab hbc]

theorem strLt_conn : ∀ a b : Str, strLt a b = false → strLt b a = false → a = b := by
  intro a
  induction a with
  | nil =>
    intro b h1 _
    cases b with
    | nil => rfl
    | cons y ys => simp [strLt] at h1
  | cons x xs ih =>
    intro b h1 h2
    cases b with
    | nil => simp [strLt] at h2
    | cons y ys =>
      simp only [strLt] at h1 h2
      by_cases hxy : x < y
      · rw [if_pos hxy] at h1
        simp at h1
      · by_cases hyx : y < x
        · rw [if_pos hyx] at h2
          simp at h2
        · have hx : x = y := le_antisymm (le_of_not_lt hyx) (le_of_not_lt hxy)
          rw [if_neg hxy, if_neg hyx] at h1
          rw [if_neg hyx, if_neg hxy] at h2
          rw [hx, ih ys h1 h2]

/-- From `x < r` (as timestamps) and `¬x < y`, conclude `¬r < y`:
used to show the inserted record stays above everything below it. -/
theorem strLt_false_of_lt_of_not_lt {x r y : Str}
    (h1 : strLt x r = true) (h2 : strLt x y = false) : strLt r y = false := by
  cases hb : strLt r y
  · rfl
  · exact absurd (strLt_trans x r y h1 hb) (by simp [h2])

/-- From `x < t` and `¬x < y` (so `y ≤ x`), conclude `y < t`. -/
theorem strLt_of_not_lt_of_lt {x t y : Str}
    (h1 : strLt x t = true) (h2 : strLt x y = false) : strLt y t = true := by
  cases hb : strLt y x
  · have hyx : y = x := strLt_conn y x hb h2
    rw [hyx]
    exact h1
  · exact strLt_trans y x t hb h1

/-- One step of Python's stable descending sort: insert a later record
after every already-placed record whose timestamp is not smaller. -/
def insertDesc (r : Metadata) : List Metadata → List Metadata
  | [] => [r]
  | x :: xs =>
    if strLt x.timestamp r.timestamp then r :: x :: xs
    else x :: insertDesc r xs

/-- `emails.sort(key=..., reverse=True)`: the unique stable descending
reordering, realized as left-to-right insertion. -/
def sortRev (l : List Metadata) : List Metadata :=
  l.foldl (fun acc r => insertDesc r acc) []

/-- Python `s.endswith(t)`. -/
def endsWith (s suf : Str) : Bool := decide (s.reverse.take suf.length = suf.reverse)

/-- The records parsed from the `.json` files of a directory listing, in
enumeration order (smtp_gui.py lines 436-441). -/
def jsonRecords (listing : List (Str × FileData)) : List Metadata :=
  listing.filterMap (fun e =>
    if endsWith e.1 (".json".toList) then
      match e.2 with
      | .json m => some m
      | _ => none
    else none)

/-- smtp_gui.py `load_emails`: collect the metadata records of the listed
`.json` files and sort them by timestamp, newest first (stable). -/
def load_emails (listing : List (Str × FileData)) : List Metadata :=
  sortRev (jsonRecords listing)

/-- The descending-timestamp relation the sorted output satisfies between
any earlier and any later record. -/
def tsNotBelow (a b : Metadata) : Prop := strLt a.timestamp b.timestamp = false

theorem insertDesc_perm (r : Metadata) :
    ∀ l : List Metadata, (insertDesc r l).Perm (r :: l) := by
  intro l
  induction l with
  | nil => exact List.Perm.refl _
  | cons x xs ih =>
    by_cases hlt : strLt x.timestamp r.timestamp = true
    · simp only [insertDesc, hlt, if_true]
      exact List.Perm.refl _
    · have hlt' : strLt x.timestamp r.timestamp = false := by
        cases hb : strLt x.timestamp r.timestamp
        · rfl
        · exact absurd hb hlt
      simp only [insertDesc, hlt', Bool.false_eq_true, if_false]
      exact (ih.cons x).trans (List.Perm.swap r x xs)

theorem mem_insertDesc {y r : Metadata} {l : List Metadata}
    (h : y ∈ insertDesc r l) : y = r ∨ y ∈ l := by
  have := (insertDesc_perm r l).mem_iff.mp h
  simpa using this

theorem insertDesc_pairwise (r : Metadata) :
    ∀ l : List Metadata, l.Pairwise tsNotBelow →
      (insertDesc r l).Pairwise tsNotBelow := by
  intro l
  induction l with
  | nil => intro _; simp [insertDesc, tsNotBelow]
  | cons x xs ih =>
    intro h
    obtain ⟨hx, hxs⟩ := List.pairwise_cons.mp h
    by_cases hlt : strLt x.timestamp r.timestamp = true
    · simp only [insertDesc, hlt, if_true]
      refine List.pairwise_cons.mpr ⟨?_, h⟩
      intro y hy
      rcases List.mem_cons.mp hy with hy | hy
      · subst hy
        exact strLt_asymm _ _ hlt
      · exact strLt_false_of_lt_of_not_lt hlt (hx y hy)
    · have hlt' : strLt x.timestamp r.timestamp = false := by
        cases hb : strLt x.timestamp r.timestamp
        · rfl
        · exact absurd hb hlt
      simp only [insertDesc, hlt', Bool.false_eq_true, if_false]
      refine List.pairwise_cons.mpr ⟨?_, ih hxs⟩
      intro y hy
      rcases mem_insertDesc hy with hy | hy
      · subst hy
        exact hlt'
      · exact hx y hy

theorem foldl_insertDesc_pairwise :
    ∀ (l acc : List Metadata), acc.Pairwise tsNotBelow →
      (l.foldl (fun acc r => insertDesc r acc) acc).Pairwise tsNotBelow := by
  intro l
  induction l with
  | nil => intro acc h; exact h
  | cons x xs ih =>
    intro acc h
    exact ih (insertDesc x acc) (insertDesc_pairwise x acc h)

theorem foldl_insertDesc_perm :
    ∀ (l acc : List Metadata),
      (l.foldl (fun acc r => insertDesc r acc) acc).Perm (l ++ acc) := by
  intro l
  induction l with
  | nil => intro acc; exact List.Perm.refl _
  | cons x xs ih =>
    intro acc
    refine (ih (insertDesc x acc)).trans ?_
    refine ((List.Perm.append_left xs (insertDesc_perm x acc)).trans ?_)
    exact List.perm_middle

/-- Stability of the insertion step, phrased per timestamp class: a record
is inserted after all already-placed records of its own timestamp (the
already-placed list being sorted), and records of other timestamps keep
their order. -/
theorem filter_insertDesc (r : Metadata) (t : Str) :
    ∀ l : List Metadata, l.Pairwise tsNotBelow →
      (insertDesc r l).filter (fun x => decide (x.timestamp = t)) =
        if r.timestamp = t then
          l.filter (fun x => decide (x.timestamp = t)) ++ [r]
        else
          l.filter (fun x => decide (x.timestamp = t)) := by
  intro l
  induction l with
  | nil =>
    intro _
    by_cases hr : r.timestamp = t
    · simp [insertDesc, List.filter, hr]
    · simp [insertDesc, List.filter, hr]
  | cons x xs ih =>
    intro h
    obtain ⟨hx, hxs⟩ := List.pairwise_cons.mp h
    by_cases hlt : strLt x.timestamp r.timestamp = true
    · simp only [insertDesc, hlt, if_true]
      by_cases hr : r.timestamp = t
      · have hxne : ¬(x.timestamp = t) := by
          intro hxt
          have hcontra : strLt x.timestamp x.timestamp = true := by
            rw [hxt, ← hr] at hlt ⊢
            exact hlt
          rw [strLt_irrefl] at hcontra
          exact absurd hcontra (by simp)
        have hall : ∀ y ∈ xs, ¬(y.timestamp = t) := by
          intro y hy hyt
          have hyx : strLt y.timestamp t = true :=
            strLt_of_not_lt_of_lt (hr ▸ hlt) (hx y hy)
          rw [hyt, strLt_irrefl] at hyx
          exact absurd hyx (by simp)
        have hnil : (x :: xs).filter (fun x => decide (x.timestamp = t)) = [] := by
          rw [List.filter_cons, if_neg (by simpa using hxne)]
          apply List.filter_eq_nil_iff.mpr
          intro y hy
          simpa using hall y hy
        rw [if_pos hr, List.filter_cons, if_pos (by simpa using hr), hnil]
        rfl
      · rw [if_neg hr, List.filter_cons, if_neg (by simpa using hr)]
    · have hlt' : strLt x.timestamp r.timestamp = false := by
        cases hb : strLt x.timestamp r.timestamp
        · rfl
        · exact absurd hb hlt
      simp only [insertDesc, hlt', Bool.false_eq_true, if_false]
      by_cases hxt : x.timestamp = t
      · by_cases hr : r.timestamp = t
        · simp [List.filter_cons, ih hxs, hxt, hr]
        · simp [List.filter_cons, ih hxs, hxt, hr]
      · by_cases hr : r.timestamp = t
        · simp [List.filter_cons, ih hxs, hxt, hr]
        · simp [List.filter_cons, ih hxs, hxt, hr]

theorem foldl_insertDesc_filter (t : Str) :
    ∀ (l acc : List Metadata), acc.Pairwise tsNotBelow →
      (l.foldl (fun acc r => insertDesc r acc) acc).filter
          (fun x => decide (x.timestamp = t)) =
        acc.filter (fun x => decide (x.timestamp = t)) ++
          l.filter (fun x => decide (x.timestamp = t)) := by
  intro l
  induction l with
  | nil => intro acc _; simp
  | cons x xs ih =>
    intro acc h
    have hstep := filter_insertDesc x t acc h
    rw [List.foldl_cons, ih (insertDesc x acc) (insertDesc_pairwise x acc h), hstep,
      List.filter_cons]
    by_cases hx : x.timestamp = t
    · rw [if_pos hx, if_pos (by simpa using hx), List.append_assoc]
      rfl
    · rw [if_neg hx, if_neg (by simpa using hx)]

/-- C6 counterexample: two metadata records with the identical timestamp
`T`, whose filenames order as `email_1.eml < email_2.eml`.  When the
storage enumerates the newer-named file first, `load_emails` keeps that
enumeration order for the tie (Python's sort is stable), so the output is
not in filename order; enumerating in the opposite order yields the other
output, so the result also depends on the enumeration order. -/
theorem c6_tie_order_counterexample :
    load_emails
        [("metadata_2.json".toList,
          FileData.json ⟨"T".toList, "a@x.cc".toList, "b@y.cc".toList,
            "s".toList, "email_2.eml".toList⟩),
         ("metadata_1.json".toList,
          FileData.json ⟨"T".toList, "a@x.cc".toList, "b@y.cc".toList,
            "s".toList, "email_1.eml".toList⟩)] =
      [⟨"T".toList, "a@x.cc".toList, "b@y.cc".toList, "s".toList,
          "email_2.eml".toList⟩,
       ⟨"T".toList, "a@x.cc".toList, "b@y.cc".toList, "s".toList,
          "email_1.eml".toList⟩] ∧
    strLt ("email_1.eml".toList) ("email_2.eml".toList) = true ∧
    load_emails
        [("metadata_1.json".toList,
          FileData.json ⟨"T".toList, "a@x.cc".toList, "b@y.cc".toList,
            "s".toList, "email_1.eml".toList⟩),
         ("metadata_2.json".toList,
          FileData.json ⟨"T".toList, "a@x.cc".toList, "b@y.cc".toList,
            "s".toList, "email_2.eml".toList⟩)] =
      [⟨"T".toList, "a@x.cc".toList, "b@y.cc".toList, "s".toList,
          "email_1.eml".toList⟩,
       ⟨"T".toList, "a@x.cc".toList, "b@y.cc".toList, "s".toList,
          "email_2.eml".toList⟩] := by
  refine ⟨?_, ?_, ?_⟩
  · decide
  · decide
  · decide

/-- C6 (amended): `load_emails` returns the metadata records of the listed
`.json` files sorted by timestamp in non-increasing order; the output is a
permutation of the parsed records, and any two records with equal
timestamps appear in the order the storage enumerated them (Python's sort
is stable) — not in filename order, and hence not independently of the
enumeration order. -/
theorem c6_sorted_desc_amended (listing : List (Str × FileData)) :
    (load_emails listing).Pairwise tsNotBelow ∧
    (load_emails listing).Perm (jsonRecords listing) ∧
    (∀ t, (load_emails listing).filter (fun x => decide (x.timestamp = t)) =
      (jsonRecords listing).filter (fun x => decide (x.timestamp = t))) := by
  refine ⟨?_, ?_, ?_⟩
  · exact foldl_insertDesc_pairwise (jsonRecords listing) [] (List.Pairwise.nil)
  · have := foldl_insertDesc_perm (jsonRecords listing) []
    simpa [load_emails, sortRev] using this
  · intro t
    have := foldl_insertDesc_filter t (jsonRecords listing) [] (List.Pairwise.nil)
    simpa [load_emails, sortRev] using this

/-! ## Message composition and sending (smtp_client.py)

Python exceptions raised by the client are modelled by `PyExc`; every
constructor corresponds to an exception class deriving from `Exception`
(`ValueError` from validation, `OSError` from file access, `SMTPException`
from the transport), matching what the code can raise.  The local
filesystem is an association list from path to a readable-or-not entry; the
outbound transport (`smtplib.SMTP(...)` plus `sendmail`) is an opaque
function that either succeeds or raises. -/

inductive PyExc where
  | valueError (msg : Str)
  | osError (msg : Str)
  | smtpException (msg : Str)
deriving DecidableEq

/-- Which model exceptions an `except smtplib.SMTPException` clause
catches. -/
def isSMTPExc : PyExc → Bool
  | .smtpException _ => true
  | _ => false

/-- Which model exceptions an `except Exception` clause catches: all of
them, since ValueError, OSError and SMTPException all derive from
`Exception`. -/
def isExceptionClass : PyExc → Bool
  | .valueError _ => true
  | .osError _ => true
  | .smtpException _ => true

/-- A path on the client machine either holds a readable file with some
bytes, or exists but cannot be read (e.g. permissions). -/
inductive FileEntry where
  | readable (content : Str)
  | unreadable
deriving DecidableEq

abbrev ClientFS := List (Str × FileEntry)

def lookupFS : ClientFS → Str → Option FileEntry
  | [], _ => none
  | (p, e) :: rest, q => if p = q then some e else lookupFS rest q

/-- `os.path.exists`. -/
def pathExists (fs : ClientFS) (p : Str) : Bool := (lookupFS fs p).isSome

/-- `os.path.basename`: the part of the path after the last slash. -/
def basename (p : Str) : Str := (p.reverse.takeWhile (fun c => !(c == '/'))).reverse

/-- The composed MIME message (MIMEMultipart with From/To/Subject/Date
headers, one body part, then attachment parts in input order).  The
base64 transfer encoding of an attachment is kept as the raw bytes. -/
structure MIMEMsg where
  fromAddr : Str
  toAddr : Str
  subject : Str
  date : Str
  body : Str
  attachments : List (Str × Str)
deriving DecidableEq

/-- smtp_client.py `_attach_file`: open the file and read it; raises
(OSError) when the file cannot be opened, and the outer handler re-raises
(lines 102-104). -/
def attach_file (fs : ClientFS) (p : Str) : Except PyExc (Str × Str) :=
  match lookupFS fs p with
  | some (.readable content) => .ok (basename p, content)
  | _ => .error (.osError ("cannot read ".toList ++ p))

/-- The recipients argument: the code accepts either a single address
string or a list of addresses. -/
inductive Recipients where
  | str (s : Str)
  | list (l : List Str)

/-- Python `', '.join(recipients)`. -/
def joinComma : List Str → Str
  | [] => []
  | [s] => s
  | s :: rest => s ++ [',', ' '] ++ joinComma rest

/-- The To header of `create_email`:
`', '.join(recipients) if isinstance(recipients, list) else recipients`. -/
def toHeaderOf : Recipients → Str
  | .list l => joinComma l
  | .str s => s

/-- The attachment loop of `create_email` (lines 69-74): existing paths are
attached via `_attach_file` (whose exception propagates), missing paths are
skipped with a logged warning.  Returns the attachment parts in order and
the warnings recorded for the caller. -/
def attachLoop (fs : ClientFS) : List Str → Except PyExc (List (Str × Str) × List Str)
  | [] => .ok ([], [])
  | p :: ps =>
    if pathExists fs p then
      match attach_file fs p with
      | .ok part =>
        match attachLoop fs ps with
        | .ok (parts, ws) => .ok (part :: parts, ws)
        | .error e => .error e
      | .error e => .error e
    else
      match attachLoop fs ps with
      | .ok (parts, ws) => .ok (parts, ("Attachment file not found: ".toList ++ p) :: ws)
      | .error e => .error e

/-- smtp_client.py `create_email`: build the message container with its
headers and body, then attach the files; any exception raised while
attaching is logged and re-raised (lines 79-81).  `now` models the
`datetime.now().strftime(...)` Date header. -/
def create_email (fs : ClientFS) (sender : Str) (recipients : Recipients)
    (subject body : Str) (attachments : List Str) (now : Str) :
    Except PyExc (MIMEMsg × List Str) :=
  match attachLoop fs attachments with
  | .error e => .error e
  | .ok (parts, ws) =>
    .ok (⟨sender, toHeaderOf recipients, subject, now, body, parts⟩, ws)

/-- `checkRecipients` models the validation loop of `send_email`
(lines 129-131): the first invalid recipient raises `ValueError`. -/
def checkRecipients : List Str → Except PyExc Unit
  | [] => .ok ()
  | r :: rs =>
    if validate_email r then checkRecipients rs
    else .error (.valueError ("Invalid recipient email address: ".toList ++ r))

/-- The body of the `try` block of `send_email` (lines 120-149): normalize
the recipients to a list, validate sender and recipients, compose the
message, then hand it to the transport (`smtplib.SMTP` + `sendmail`,
modelled by the opaque `transport`), returning `True`. -/
def send_email_try (fs : ClientFS)
    (transport : Str → List Str → MIMEMsg → Except PyExc Unit)
    (sender : Str) (recipients : Recipients) (subject body : Str)
    (attachments : List Str) (now : Str) : Except PyExc Bool :=
  let rcpts := match recipients with
    | .str s => [s]
    | .list l => l
  if validate_email sender then
    match checkRecipients rcpts with
    | .error e => .error e
    | .ok _ =>
      match create_email fs sender (.list rcpts) subject body attachments now with
      | .error e => .error e
      | .ok (msg, _) =>
        match transport sender rcpts msg with
        | .error e => .error e
        | .ok _ => .ok true
  else .error (.valueError ("Invalid sender email address: ".toList ++ sender))

/-- smtp_client.py `send_email`: the try body guarded by
`except smtplib.SMTPException` and `except Exception`, both of which log
and return `False` (lines 151-159).  An exception caught by neither clause
would propagate, hence the `Except` result type. -/
def send_email (fs : ClientFS)
    (transport : Str → List Str → MIMEMsg → Except PyExc Unit)
    (sender : Str) (recipients : Recipients) (subject body : Str)
    (attachments : List Str) (now : Str) : Except PyExc Bool :=
  match send_email_try fs transport sender recipients subject body attachments now with
  | .ok b => .ok b
  | .error e =>
    if isSMTPExc e then .ok false
    else if isExceptionClass e then .ok false
    else .error e

/-- The attachment part `create_email` produces for one path, when it
produces one: present and readable paths yield (basename, bytes). -/
def readablePart (fs : ClientFS) (p : Str) : Option (Str × Str) :=
  match lookupFS fs p with
  | some (.readable c) => some (basename p, c)
  | _ => none

theorem attachLoop_ok (fs : ClientFS) :
    ∀ atts : List Str, (∀ p ∈ atts, lookupFS fs p ≠ some FileEntry.unreadable) →
      attachLoop fs atts =
        .ok (atts.filterMap (readablePart fs),
          (atts.filter (fun p => (lookupFS fs p).isNone)).map
            (fun p => "Attachment file not found: ".toList ++ p)) := by
  intro atts
  induction atts with
  | nil => intro _; rfl
  | cons p ps ih =>
    intro h
    have hp := h p (List.mem_cons_self p ps)
    have ht : ∀ q ∈ ps, lookupFS fs q ≠ some FileEntry.unreadable :=
      fun q hq => h q (List.mem_cons_of_mem _ hq)
    cases hl : lookupFS fs p with
    | none =>
      simp [attachLoop, pathExists, hl, ih ht, readablePart, List.filterMap_cons,
        List.filter_cons]
    | some e =>
      cases e with
      | readable c =>
        simp [attachLoop, pathExists, hl, attach_file, ih ht, readablePart,
          List.filterMap_cons, List.filter_cons]
      | unreadable => exact absurd hl hp

/-- C7 counterexample: an attachment path that exists but is not readable
does not resolve to a readable file, yet composing does not skip it:
`_attach_file` raises and `create_email` re-raises, so compose fails
instead of returning a message.  Only non-existent paths are skipped
(the code tests `os.path.exists`, not readability). -/
theorem c7_unreadable_raises_counterexample :
    create_email [("f".toList, FileEntry.unreadable)] ("a@b.cc".toList)
        (.list ["c@d.ee".toList]) ("s".toList) ("b".toList) ["f".toList]
        ("D".toList) =
      .error (.osError ("cannot read ".toList ++ "f".toList)) := by
  rfl

/-- C7 (amended): for every attachment path that does not exist, composing
skips that attachment with a recorded warning and does not fail: provided
every existing attachment path is readable, `create_email` succeeds and
returns the message with the body and exactly the readable attachments (in
order), plus one warning per missing path. -/
theorem c7_missing_attachment_skipped_amended (fs : ClientFS) (sender : Str)
    (recipients : Recipients) (subject body : Str) (attachments : List Str)
    (now : Str)
    (h : ∀ p ∈ attachments, lookupFS fs p ≠ some FileEntry.unreadable) :
    create_email fs sender recipients subject body attachments now =
      .ok (⟨sender, toHeaderOf recipients, subject, now, body,
            attachments.filterMap (readablePart fs)⟩,
           (attachments.filter (fun p => (lookupFS fs p).isNone)).map
             (fun p => "Attachment file not found: ".toList ++ p)) := by
  unfold create_email
  rw [attachLoop_ok fs attachments h]

/-- C7 witness: the amended theorem at a filesystem holding one readable
file, with one readable and one missing attachment path. -/
theorem c7_missing_attachment_witness :
    create_email [("a.txt".toList, FileEntry.readable ("data".toList))]
        ("a@b.cc".toList) (.list ["c@d.ee".toList]) ("s".toList) ("b".toList)
        ["a.txt".toList, "missing".toList] ("D".toList) =
      .ok (⟨"a@b.cc".toList,
            toHeaderOf (.list ["c@d.ee".toList]), "s".toList, "D".toList,
            "b".toList,
            ["a.txt".toList, "missing".toList].filterMap
              (readablePart [("a.txt".toList, FileEntry.readable ("data".toList))])⟩,
           (["a.txt".toList, "missing".toList].filter
              (fun p => (lookupFS [("a.txt".toList,
                FileEntry.readable ("data".toList))] p).isNone)).map
             (fun p => "Attachment file not found: ".toList ++ p)) :=
  c7_missing_attachment_skipped_amended
    [("a.txt".toList, FileEntry.readable ("data".toList))] ("a@b.cc".toList)
    (.list ["c@d.ee".toList]) ("s".toList) ("b".toList)
    ["a.txt".toList, "missing".toList] ("D".toList) (by decide)

/-- C8 (confirmed): for every input and every transport behaviour
expressible as success or an exception of the classes the client can see
(ValueError, OSError, SMTPException — all deriving Exception),
`send_email` never propagates an exception: the two except clauses catch
every failure of the try body, and the result is always a boolean. -/
theorem c8_send_email_never_raises (fs : ClientFS)
    (transport : Str → List Str → MIMEMsg → Except PyExc Unit)
    (sender : Str) (recipients : Recipients) (subject body : Str)
    (attachments : List Str) (now : Str) :
    ∃ b, send_email fs transport sender recipients subject body attachments now =
      .ok b := by
  unfold send_email
  cases h : send_email_try fs transport sender recipients subject body attachments now with
  | ok b => exact ⟨b, rfl⟩
  | error e =>
    refine ⟨false, ?_⟩
    cases e <;> simp [isSMTPExc, isExceptionClass]

/-- C9 (confirmed): passing a single recipient string to `send_email`
behaves identically to passing the one-element list containing it — the
normalization `recipients = [recipients]` makes the try body equal — and
`create_email` builds the same message either way, since
`', '.join([r]) = r` gives the same To header. -/
theorem c9_string_recipient_equiv (fs : ClientFS)
    (transport : Str → List Str → MIMEMsg → Except PyExc Unit)
    (sender r : Str) (subject body : Str) (attachments : List Str) (now : Str) :
    send_email fs transport sender (.str r) subject body attachments now =
      send_email fs transport sender (.list [r]) subject body attachments now ∧
    create_email fs sender (.str r) subject body attachments now =
      create_email fs sender (.list [r]) subject body attachments now :=
  ⟨rfl, rfl⟩

end SMTPLab
